import Mathlib

/-!
Verification of the four-stage synchronization core of Version-Equalizer
(`FileProcessor` in `version_equalizer.pyw`): snapshot scanning,
snapshot diffing (`compare_versions`), payload packaging (`create_zip`)
and plan application (`equalize_versions`).

Modelling conventions:
* a tree-relative, forward-slash-normalized path is a list of components
  (`Path := List String`);
* file contents are byte lists (`Bytes := List Nat`);
* a Python `dict` built by a comprehension is an association list with
  in-place update of the first matching key (insertion order, last value
  wins), exactly the semantics of `{item["fileName"]: item["hash"] for ...}`;
* the filesystem seen by `equalize_versions` is rooted at `from_folder`
  (paths relative to it) and carries both a file map and the set of
  directories created by `os.makedirs`;
* the filesystem seen by `create_zip` is the global one (absolute paths),
  since that operation writes outside the target root.
-/

namespace VersionEqualizer

abbrev Path := List String

abbrev Bytes := List Nat

/-- One element of the `files` list of a snapshot JSON:
`{"fileName": ..., "hash": ...}`. -/
structure FileRecord where
  fileName : Path
  hash : String
deriving DecidableEq

/-- One element of `convert_data`: `{"filename": ..., "status": "copy" | "move"}`. -/
structure ConvertEntry where
  filename : Path
  status : String
deriving DecidableEq

/-- Python dict insertion: update the first binding of the key in place
(keeping its position), otherwise append the new binding at the end.
This is the semantics of repeated `d[k] = v`. -/
def pyInsert (d : List (Path × String)) (k : Path) (v : String) :
    List (Path × String) :=
  match d with
  | [] => [(k, v)]
  | (k', v') :: rest =>
      if k' = k then (k', v) :: rest else (k', v') :: pyInsert rest k v

/-- The dict `{item["fileName"]: item["hash"] for item in data["files"]}`:
fold the snapshot's records into an empty dict. -/
def toDict (files : List FileRecord) : List (Path × String) :=
  files.foldl (fun d r => pyInsert d r.fileName r.hash) []

/-- Dict lookup: value of the first binding of the key, `none` when the
key is absent (`filename not in d` is `dlookup d filename = none`). -/
def dlookup (d : List (Path × String)) (k : Path) : Option String :=
  match d with
  | [] => none
  | (k', v') :: rest => if k' = k then some v' else dlookup rest k

/-- `FileProcessor.compare_versions` (version_equalizer.pyw, lines 90-116):
build the `to_files` and `from_files` dicts, emit a `"copy"` entry for every
`to_files` key missing from `from_files` or bound to a different hash, then a
`"move"` entry for every `from_files` key missing from `to_files`. -/
def compare_versions (to_version_data from_version_data : List FileRecord) :
    List ConvertEntry :=
  let to_files := toDict to_version_data
  let from_files := toDict from_version_data
  (to_files.filterMap fun kv =>
    if dlookup from_files kv.1 = none ∨ dlookup from_files kv.1 ≠ some kv.2 then
      some ⟨kv.1, "copy"⟩
    else none) ++
  (from_files.filterMap fun kv =>
    if dlookup to_files kv.1 = none then some ⟨kv.1, "move"⟩ else none)

/-- The first loop of `compare_versions` on its own: the `"copy"` entries. -/
def copyPart (to_version_data from_version_data : List FileRecord) :
    List ConvertEntry :=
  (toDict to_version_data).filterMap fun kv =>
    if dlookup (toDict from_version_data) kv.1 = none
        ∨ dlookup (toDict from_version_data) kv.1 ≠ some kv.2 then
      some ⟨kv.1, "copy"⟩
    else none

/-- The second loop of `compare_versions` on its own: the `"move"` entries. -/
def movePart (to_version_data from_version_data : List FileRecord) :
    List ConvertEntry :=
  (toDict from_version_data).filterMap fun kv =>
    if dlookup (toDict to_version_data) kv.1 = none then
      some ⟨kv.1, "move"⟩
    else none

/-- The hash of the last record with a given path in a snapshot list
(what Python dict construction keeps for a duplicated key). -/
def lastHash (files : List FileRecord) (p : Path) : Option String :=
  match files with
  | [] => none
  | r :: rest =>
      match lastHash rest p with
      | some h => some h
      | none => if r.fileName = p then some r.hash else none

/-- The keys of an association list. -/
def dkeys (d : List (Path × String)) : List Path :=
  d.map Prod.fst

/-- One file the Snapshotter's directory walk visits: its path relative to
the scanned root (separator-normalized), its bytes, and whether reading it
succeeds (an unreadable file raises inside the per-file `try`). -/
structure SFile where
  relPath : Path
  contents : Bytes
  readable : Bool
deriving DecidableEq

/-- `FileProcessor.scan_folder` (version_equalizer.pyw, lines 50-88): walk
the files in order, hash each one's contents and append a record; a file
whose read fails is skipped (`except: continue`) and the scan of the rest
goes on. The digest function is a parameter (the source streams MD5). -/
def scan_folder (hashF : Bytes → String) (walk : List SFile) :
    List FileRecord :=
  walk.foldl
    (fun file_data f =>
      if f.readable then file_data ++ [⟨f.relPath, hashF f.contents⟩]
      else file_data) []

/-- One entry of the payload archive: arcname (the plan's `filename`) and
the packed bytes. -/
structure ZipEntry where
  arcname : Path
  contents : Bytes
deriving DecidableEq

/-- A bytestring serialization of an archive, so that the written
`version_update.zip` is an ordinary file of the modelled filesystem. -/
def encodeZip (entries : List ZipEntry) : Bytes :=
  entries.foldl
    (fun acc e =>
      acc ++ [e.arcname.length]
        ++ e.arcname.flatMap (fun s => [s.length] ++ s.data.map Char.toNat)
        ++ [e.contents.length] ++ e.contents) []

/-- The result dict of `create_zip`: `zip_path` (`None` when nothing was
zipped) and the explicit `"No files to zip"` message. -/
structure ZipOutcome where
  zip_path : Option Path
  message : Option String
deriving DecidableEq

/-- The global filesystem `create_zip` works in: absolute path → bytes. -/
abbrev World := Path → Option Bytes

/-- `os.path.join(os.path.dirname(to_folder), "version_update.zip")` for a
normalized absolute folder path. -/
def zipPathOf (to_folder : Path) : Path :=
  to_folder.dropLast ++ ["version_update.zip"]

/-- The entries `create_zip` writes: the plan filtered to `"copy"` entries,
each packed under its `filename` whenever `to_folder + filename` still
exists (a vanished source file is skipped, lines 133-134). -/
def zipEntriesOf (convert_data : List ConvertEntry) (to_folder : Path)
    (world : World) : List ZipEntry :=
  (convert_data.filter fun item => decide (item.status = "copy")).filterMap
    fun item => (world (to_folder ++ item.filename)).map
      fun b => ⟨item.filename, b⟩

/-- `FileProcessor.create_zip` (lines 118-140): filter the plan to `"copy"`
entries; when none remain, report `zip_path = None` with the message and
write nothing; otherwise write the single archive file at
`zipPathOf to_folder` (mode `'w'` silently replaces any previous file). -/
def create_zip (convert_data : List ConvertEntry) (to_folder : Path)
    (world : World) : ZipOutcome × World :=
  let files_to_zip := convert_data.filter fun item => decide (item.status = "copy")
  if files_to_zip = [] then
    (⟨none, some "No files to zip"⟩, world)
  else
    (⟨some (zipPathOf to_folder), none⟩,
     fun q =>
       if q = zipPathOf to_folder then
         some (encodeZip (zipEntriesOf convert_data to_folder world))
       else world q)

/-- The current tree as `equalize_versions` sees it: paths relative to
`from_folder`; `files` maps a path to its bytes, `dirs` records the
directories `os.makedirs` (and archive extraction) created. -/
structure FS where
  files : Path → Option Bytes
  dirs : List Path

def setFile (m : Path → Option Bytes) (p : Path) (c : Bytes) :
    Path → Option Bytes :=
  fun q => if q = p then some c else m q

def removeFile (m : Path → Option Bytes) (p : Path) : Path → Option Bytes :=
  fun q => if q = p then none else m q

/-- `os.makedirs(d, exist_ok=True)` on one directory. -/
def addDir (ds : List Path) (d : Path) : List Path :=
  if d ∈ ds then ds else ds ++ [d]

def addDirs (ds : List Path) (l : List Path) : List Path :=
  l.foldl addDir ds

/-- The chain of ancestor directories whose creation extraction or
`os.makedirs(os.path.dirname(dest))` implies for a file path. -/
def parentDirs (p : Path) : List Path :=
  ((List.range p.length).map fun k => p.take k).filter fun d => decide (d ≠ [])

/-- Extracting one archive entry into the tree (`zipf.extractall`, line
150): write the entry's bytes at its arcname, creating parent
directories. -/
def extract_one (fs : FS) (e : ZipEntry) : FS :=
  ⟨setFile fs.files e.arcname e.contents, addDirs fs.dirs (parentDirs e.arcname)⟩

def extractall (fs : FS) (archive : List ZipEntry) : FS :=
  archive.foldl extract_one fs

/-- One iteration of the `for item in convert_data` loop (lines 157-164):
a `"move"` entry whose source exists is renamed into the quarantine subtree
(`shutil.move`: the source disappears, the destination — even an existing
file — ends up with the source's bytes) after `os.makedirs` on the
destination's parent, and the moved filename is recorded; every other
entry leaves the state untouched. -/
def move_step (st : FS × List Path) (item : ConvertEntry) : FS × List Path :=
  if item.status = "move" then
    match st.1.files item.filename with
    | some c =>
        (⟨setFile (removeFile st.1.files item.filename)
            ("ExtraFiles_VersionEqualizer" :: item.filename) c,
          addDirs st.1.dirs
            (parentDirs ("ExtraFiles_VersionEqualizer" :: item.filename))⟩,
         st.2 ++ [item.filename])
    | none => st
  else st

/-- `FileProcessor.equalize_versions` (lines 142-166): extract the whole
archive into the tree, unconditionally create the quarantine directory
`ExtraFiles_VersionEqualizer` (line 154), then run the move loop. Returns
the final tree and the `moved_files` result — nothing else. -/
def equalize_versions (convert_data : List ConvertEntry)
    (archive : List ZipEntry) (fs : FS) : FS × List Path :=
  let fs1 := extractall fs archive
  let fs2 : FS := ⟨fs1.files, addDir fs1.dirs ["ExtraFiles_VersionEqualizer"]⟩
  convert_data.foldl move_step (fs2, [])

theorem dlookup_pyInsert (d : List (Path × String)) (k : Path) (v : String)
    (q : Path) :
    dlookup (pyInsert d k v) q = if k = q then some v else dlookup d q := by
  induction d with
  | nil =>
      simp only [pyInsert, dlookup]
  | cons kv rest ih =>
      obtain ⟨k', v'⟩ := kv
      by_cases hk : k' = k
      · subst hk
        by_cases hq : k' = q <;> simp [pyInsert, dlookup, hq]
      · by_cases hq : k' = q
        · subst hq
          have : ¬ k = k' := fun h => hk h.symm
          simp [pyInsert, dlookup, hk, this]
        · simp [pyInsert, dlookup, hk, hq, ih]

theorem dlookup_foldl_pyInsert (files : List FileRecord) (p : Path) :
    ∀ acc, dlookup (files.foldl (fun d r => pyInsert d r.fileName r.hash) acc) p
      = ((lastHash files p).rec (dlookup acc p) fun h => some h : Option String) := by
  induction files with
  | nil => intro acc; simp [lastHash]
  | cons r rest ih =>
      intro acc
      have step := ih (pyInsert acc r.fileName r.hash)
      simp only [List.foldl_cons, step, lastHash, dlookup_pyInsert]
      cases hrest : lastHash rest p with
      | some h => simp
      | none =>
          by_cases hname : r.fileName = p <;> simp [hname]

/-- Claim C7's actual behaviour: the digest the differ uses for a path is
that of the last record carrying this path in the snapshot list. -/
theorem dlookup_toDict (files : List FileRecord) (p : Path) :
    dlookup (toDict files) p = lastHash files p := by
  have h := dlookup_foldl_pyInsert files p []
  simp only [toDict, h, dlookup]
  cases lastHash files p <;> rfl

theorem dkeys_pyInsert_of_mem (d : List (Path × String)) (k : Path) (v : String)
    (h : k ∈ dkeys d) : dkeys (pyInsert d k v) = dkeys d := by
  induction d with
  | nil => simp [dkeys] at h
  | cons kv rest ih =>
      obtain ⟨k', v'⟩ := kv
      by_cases hk : k' = k
      · simp [pyInsert, hk, dkeys]
      · have hmem : k ∈ dkeys rest := by
          have h' : k = k' ∨ k ∈ List.map Prod.fst rest := by
            simpa [dkeys] using h
          exact h'.resolve_left fun hEq => hk hEq.symm
        simp only [pyInsert, if_neg hk, dkeys, List.map_cons]
        exact congrArg (k' :: ·) (ih hmem)

theorem dkeys_pyInsert_of_not_mem (d : List (Path × String)) (k : Path)
    (v : String) (h : ¬ k ∈ dkeys d) :
    dkeys (pyInsert d k v) = dkeys d ++ [k] := by
  induction d with
  | nil => simp [pyInsert, dkeys]
  | cons kv rest ih =>
      obtain ⟨k', v'⟩ := kv
      have hk : ¬ k' = k := by
        intro hEq; exact h (by simp [dkeys, hEq])
      have hrest : ¬ k ∈ dkeys rest := by
        intro hmem
        apply h
        have hmem' : k ∈ List.map Prod.fst rest := by simpa [dkeys] using hmem
        simp only [dkeys, List.map_cons, List.mem_cons]
        exact Or.inr hmem'
      simp only [pyInsert, if_neg hk, dkeys, List.map_cons, List.cons_append]
      exact congrArg (k' :: ·) (ih hrest)

theorem nodup_dkeys_pyInsert (d : List (Path × String)) (k : Path) (v : String)
    (h : (dkeys d).Nodup) : (dkeys (pyInsert d k v)).Nodup := by
  by_cases hmem : k ∈ dkeys d
  · rw [dkeys_pyInsert_of_mem d k v hmem]; exact h
  · rw [dkeys_pyInsert_of_not_mem d k v hmem]
    simpa [List.nodup_append] using ⟨h, fun hk => hmem hk⟩

theorem nodup_dkeys_foldl (files : List FileRecord) :
    ∀ acc, (dkeys acc).Nodup →
      (dkeys (files.foldl (fun d r => pyInsert d r.fileName r.hash) acc)).Nodup := by
  induction files with
  | nil => intro acc h; exact h
  | cons r rest ih =>
      intro acc h
      exact ih _ (nodup_dkeys_pyInsert acc r.fileName r.hash h)

theorem nodup_dkeys_toDict (files : List FileRecord) :
    (dkeys (toDict files)).Nodup :=
  nodup_dkeys_foldl files [] (by simp [dkeys])

theorem dlookup_eq_of_mem (d : List (Path × String)) (k : Path) (v : String)
    (hnd : (dkeys d).Nodup) (h : (k, v) ∈ d) : dlookup d k = some v := by
  induction d with
  | nil => simp at h
  | cons kv rest ih =>
      obtain ⟨k', v'⟩ := kv
      have hnd2 := List.nodup_cons.mp (show (k' :: dkeys rest).Nodup from hnd)
      rcases List.mem_cons.mp h with h | h
      · cases h
        simp [dlookup]
      · have hk' : ¬ k' = k := by
          intro hEq
          subst hEq
          have hmem : k' ∈ dkeys rest := by
            simpa [dkeys] using List.mem_map_of_mem Prod.fst h
          exact hnd2.1 hmem
        simp [dlookup, hk', ih hnd2.2 h]

/-- Helper shared by claims C4 and C9: diffing a snapshot against itself
yields an empty plan. -/
theorem compare_versions_self (s : List FileRecord) :
    compare_versions s s = [] := by
  have hlook : ∀ kv ∈ toDict s, dlookup (toDict s) kv.1 = some kv.2 := by
    intro kv hkv
    exact dlookup_eq_of_mem _ _ _ (nodup_dkeys_toDict s) hkv
  simp only [compare_versions, List.append_eq_nil, List.filterMap_eq_nil_iff]
  constructor
  · intro kv hkv
    have h := hlook kv hkv
    simp [h]
  · intro kv hkv
    have h := hlook kv hkv
    simp [h]

theorem pyInsert_of_not_mem (d : List (Path × String)) (k : Path) (v : String)
    (h : ¬ k ∈ dkeys d) : pyInsert d k v = d ++ [(k, v)] := by
  induction d with
  | nil => rfl
  | cons kv rest ih =>
      obtain ⟨k', v'⟩ := kv
      have hk : ¬ k' = k := by
        intro hEq; exact h (by simp [dkeys, hEq])
      have hrest : ¬ k ∈ dkeys rest := by
        intro hmem
        apply h
        have hmem' : k ∈ List.map Prod.fst rest := by simpa [dkeys] using hmem
        simp only [dkeys, List.map_cons, List.mem_cons]
        exact Or.inr hmem'
      simp only [pyInsert, if_neg hk, List.cons_append]
      exact congrArg ((k', v') :: ·) (ih hrest)

theorem foldl_pyInsert_eq_append (files : List FileRecord) :
    ∀ acc, (dkeys acc ++ files.map FileRecord.fileName).Nodup →
      files.foldl (fun d r => pyInsert d r.fileName r.hash) acc
        = acc ++ files.map fun r => (r.fileName, r.hash) := by
  induction files with
  | nil => intro acc _; simp
  | cons r rest ih =>
      intro acc h
      have hparts := List.nodup_append.mp h
      have hnotin : ¬ r.fileName ∈ dkeys acc := by
        intro hmem
        exact hparts.2.2 hmem (List.mem_cons_self _ _)
      have h' : (dkeys (acc ++ [(r.fileName, r.hash)])
          ++ rest.map FileRecord.fileName).Nodup := by
        have : dkeys (acc ++ [(r.fileName, r.hash)])
            = dkeys acc ++ [r.fileName] := by simp [dkeys]
        rw [this, List.append_assoc]
        simpa using h
      rw [List.foldl_cons, pyInsert_of_not_mem acc r.fileName r.hash hnotin,
        ih _ h']
      simp

/-- For a snapshot with pairwise distinct paths the Python dict is just the
record list itself, as (path, hash) pairs. -/
theorem toDict_eq_map (files : List FileRecord)
    (h : (files.map FileRecord.fileName).Nodup) :
    toDict files = files.map fun r => (r.fileName, r.hash) := by
  have h0 : (dkeys ([] : List (Path × String))
      ++ files.map FileRecord.fileName).Nodup := by simpa [dkeys] using h
  simpa [toDict] using foldl_pyInsert_eq_append files [] h0

theorem dlookup_map_pair (l : List FileRecord) (p : Path) :
    dlookup (l.map fun r => (r.fileName, r.hash)) p
      = (l.find? fun r => decide (r.fileName = p)).map FileRecord.hash := by
  induction l with
  | nil => rfl
  | cons r rest ih =>
      by_cases h : r.fileName = p
      · rw [List.find?_cons_of_pos _ (by simpa using h)]
        simp [dlookup, h]
      · rw [List.find?_cons_of_neg _ (by simpa using h)]
        simpa [dlookup, h] using ih

theorem dlookup_map_eq_none (l : List FileRecord) (p : Path) :
    dlookup (l.map fun r => (r.fileName, r.hash)) p = none
      ↔ ∀ r ∈ l, r.fileName ≠ p := by
  rw [dlookup_map_pair]
  simp [List.find?_eq_none]

theorem dlookup_map_ne_some (fromV : List FileRecord)
    (hf : (fromV.map FileRecord.fileName).Nodup) (p : Path) (h : String) :
    dlookup (fromV.map fun r => (r.fileName, r.hash)) p ≠ some h
      ↔ ∀ r' ∈ fromV, r'.fileName = p → r'.hash ≠ h := by
  rw [dlookup_map_pair]
  cases hfind : fromV.find? fun r => decide (r.fileName = p) with
  | none =>
      have hall := List.find?_eq_none.mp hfind
      simp only [Option.map_none', ne_eq]
      constructor
      · intro _ r' hr' hname _
        have hnp : ¬ r'.fileName = p := by simpa using hall r' hr'
        exact hnp hname
      · intro _ hsome
        exact Option.noConfusion hsome
  | some r' =>
      have hname' : r'.fileName = p := by simpa using List.find?_some hfind
      have hmem' : r' ∈ fromV := List.mem_of_find?_eq_some hfind
      simp only [Option.map_some', ne_eq, Option.some.injEq]
      constructor
      · intro hne r'' hr'' hname'' hhash
        have heq : r'' = r' :=
          List.inj_on_of_nodup_map hf hr'' hmem' (hname''.trans hname'.symm)
        exact hne (heq ▸ hhash)
      · intro hforall hhash
        exact hforall r' hmem' hname' hhash

theorem countP_filterMap_eq {α β : Type} (f : α → Option β) (q : β → Bool)
    (l : List α) :
    (l.filterMap f).countP q
      = l.countP fun a => ((f a).map q).getD false := by
  induction l with
  | nil => rfl
  | cons a t ih =>
      cases hfa : f a with
      | none => simp [List.filterMap_cons, hfa, List.countP_cons, ih]
      | some b => simp [List.filterMap_cons, hfa, List.countP_cons, ih]

theorem countP_eq_ite_of_key (l : List FileRecord) (p : Path)
    (pr : FileRecord → Bool) (hn : (l.map FileRecord.fileName).Nodup)
    (hp : ∀ r, pr r = true → r.fileName = p) :
    l.countP pr = if ∃ r ∈ l, pr r = true then 1 else 0 := by
  induction l with
  | nil => simp
  | cons r t ih =>
      have hn2 := List.nodup_cons.mp
        (show (r.fileName :: t.map FileRecord.fileName).Nodup from hn)
      by_cases hr : pr r = true
      · have ht0 : t.countP pr = 0 := by
          rw [List.countP_eq_zero]
          intro r' hr' hpr'
          apply hn2.1
          have h1 : r'.fileName = p := hp r' hpr'
          have h2 : r.fileName = p := hp r hr
          have : r.fileName = r'.fileName := h2.trans h1.symm
          exact this ▸ List.mem_map_of_mem FileRecord.fileName hr'
        have hex : ∃ x ∈ r :: t, pr x = true := ⟨r, List.mem_cons_self r t, hr⟩
        simp [List.countP_cons, hr, ht0, hex]
      · have hiff : (∃ x ∈ r :: t, pr x = true) ↔ ∃ x ∈ t, pr x = true := by
          constructor
          · rintro ⟨x, hx, hpx⟩
            rcases List.mem_cons.mp hx with h | h
            · exact absurd (h ▸ hpx) hr
            · exact ⟨x, h, hpx⟩
          · rintro ⟨x, hx, hpx⟩
            exact ⟨x, List.mem_cons_of_mem _ hx, hpx⟩
        simp [List.countP_cons, hr, ih hn2.2, hiff]

/-- Claim C4: for every snapshot `s`, diffing `s` against itself yields an
empty plan; in particular the diff of a scan of any tree against itself is
empty. -/
theorem claim_C4 (s : List FileRecord) (hashF : Bytes → String)
    (walk : List SFile) :
    compare_versions s s = []
      ∧ compare_versions (scan_folder hashF walk) (scan_folder hashF walk)
          = [] :=
  ⟨compare_versions_self s, compare_versions_self _⟩

/-- Claim C7 counterexample: on a snapshot with a duplicated path the
differ does not fail — it silently uses the last record's digest. The
target snapshot lists `a` with hash `h1` and then again with hash `h2`;
diffed against a current snapshot holding `a` at `h2`, the result is the
empty plan (so `h2`, the later duplicate, was used), while `h1` alone
against `h2` would have produced a copy entry. No data-integrity error is
possible: `compare_versions` is a total function of its inputs. -/
theorem claim_C7_cex :
    compare_versions [⟨["a"], "h1"⟩, ⟨["a"], "h2"⟩] [⟨["a"], "h2"⟩] = []
      ∧ compare_versions [⟨["a"], "h1"⟩] [⟨["a"], "h2"⟩]
          = [⟨["a"], "copy"⟩] := by
  exact ⟨by decide, by decide⟩

/-- Claim C7 as amended: the differ never fails; a duplicated path inside
one snapshot is resolved silently — the digest the dict gives any path is
the digest of the last record carrying that path (Python dict semantics),
and `compare_versions` consults its snapshots only through these dicts. -/
theorem claim_C7 (files : List FileRecord) (p : Path) :
    dlookup (toDict files) p = lastHash files p :=
  dlookup_toDict files p

theorem compare_versions_eq_parts (toV fromV : List FileRecord) :
    compare_versions toV fromV = copyPart toV fromV ++ movePart toV fromV :=
  rfl

theorem countP_filterMap_ite {α β : Type} (cond : α → Prop)
    [DecidablePred cond] (out : α → β) (q : β → Bool) (l : List α) :
    (l.filterMap fun a => if cond a then some (out a) else none).countP q
      = l.countP fun a => decide (cond a) && q (out a) := by
  induction l with
  | nil => rfl
  | cons a t ih =>
      by_cases h : cond a <;>
        simp [List.filterMap_cons, h, List.countP_cons, ih]

theorem countP_key_and (l : List FileRecord) (p : Path) (c : FileRecord → Bool)
    (hn : (l.map FileRecord.fileName).Nodup) :
    (l.countP fun r => decide (r.fileName = p) && c r)
      = if ∃ r ∈ l, r.fileName = p ∧ c r = true then 1 else 0 := by
  have hp : ∀ r : FileRecord,
      (decide (r.fileName = p) && c r) = true → r.fileName = p := by
    intro r h
    simp only [Bool.and_eq_true, decide_eq_true_eq] at h
    exact h.1
  rw [countP_eq_ite_of_key l p _ hn hp]
  refine if_congr ?_ rfl rfl
  simp only [Bool.and_eq_true, decide_eq_true_eq]

theorem copyPart_count (toV fromV : List FileRecord)
    (ht : (toV.map FileRecord.fileName).Nodup)
    (hf : (fromV.map FileRecord.fileName).Nodup) (p : Path) :
    ((copyPart toV fromV).countP fun e =>
        decide (e.filename = p ∧ e.status = "copy"))
      = if ∃ r ∈ toV, r.fileName = p
            ∧ ∀ r' ∈ fromV, r'.fileName = p → r'.hash ≠ r.hash
        then 1 else 0 := by
  unfold copyPart
  rw [toDict_eq_map toV ht, toDict_eq_map fromV hf, List.filterMap_map]
  have hfun : ((fun kv : Path × String =>
        if dlookup (fromV.map fun r' => (r'.fileName, r'.hash)) kv.1 = none
            ∨ dlookup (fromV.map fun r' => (r'.fileName, r'.hash)) kv.1
                ≠ some kv.2 then
          some (⟨kv.1, "copy"⟩ : ConvertEntry)
        else none)
      ∘ fun r : FileRecord => (r.fileName, r.hash))
      = fun r : FileRecord =>
        if dlookup (fromV.map fun r' => (r'.fileName, r'.hash)) r.fileName
              = none
            ∨ dlookup (fromV.map fun r' => (r'.fileName, r'.hash)) r.fileName
                ≠ some r.hash then
          some (⟨r.fileName, "copy"⟩ : ConvertEntry)
        else none := rfl
  rw [hfun, countP_filterMap_ite]
  have hcongr : ∀ r ∈ toV,
      (decide ((dlookup (fromV.map fun r' => (r'.fileName, r'.hash))
            r.fileName = none
          ∨ dlookup (fromV.map fun r' => (r'.fileName, r'.hash)) r.fileName
              ≠ some r.hash))
        && decide ((⟨r.fileName, "copy"⟩ : ConvertEntry).filename = p
            ∧ (⟨r.fileName, "copy"⟩ : ConvertEntry).status = "copy"))
      = (decide (r.fileName = p) &&
          decide (dlookup (fromV.map fun r' => (r'.fileName, r'.hash))
            r.fileName ≠ some r.hash)) := by
    intro r _
    by_cases hc : dlookup (fromV.map fun r' => (r'.fileName, r'.hash))
        r.fileName = some r.hash
    · simp [hc]
    · by_cases hp' : r.fileName = p
      · subst hp'
        simp [hc]
      · simp [hc, hp']
  have hcongr2 : ∀ r ∈ toV, ((decide ((dlookup (fromV.map
        fun r' => (r'.fileName, r'.hash)) r.fileName = none
      ∨ dlookup (fromV.map fun r' => (r'.fileName, r'.hash)) r.fileName
          ≠ some r.hash))
    && decide ((⟨r.fileName, "copy"⟩ : ConvertEntry).filename = p
        ∧ (⟨r.fileName, "copy"⟩ : ConvertEntry).status = "copy")) = true
      ↔ (decide (r.fileName = p) &&
          decide (dlookup (fromV.map fun r' => (r'.fileName, r'.hash))
            r.fileName ≠ some r.hash)) = true) := by
    intro r hr
    rw [hcongr r hr]
  rw [List.countP_congr hcongr2, countP_key_and toV p _ ht]
  refine if_congr ?_ rfl rfl
  constructor
  · rintro ⟨r, hr, hname, hc⟩
    refine ⟨r, hr, hname, ?_⟩
    have hc' : dlookup (fromV.map fun r' => (r'.fileName, r'.hash)) r.fileName
        ≠ some r.hash := of_decide_eq_true hc
    rw [hname] at hc'
    exact (dlookup_map_ne_some fromV hf p r.hash).mp hc'
  · rintro ⟨r, hr, hname, hall⟩
    refine ⟨r, hr, hname, decide_eq_true ?_⟩
    rw [hname]
    exact (dlookup_map_ne_some fromV hf p r.hash).mpr hall

theorem movePart_count (toV fromV : List FileRecord)
    (ht : (toV.map FileRecord.fileName).Nodup)
    (hf : (fromV.map FileRecord.fileName).Nodup) (p : Path) :
    ((movePart toV fromV).countP fun e =>
        decide (e.filename = p ∧ e.status = "move"))
      = if (∃ r ∈ fromV, r.fileName = p) ∧ ∀ r ∈ toV, r.fileName ≠ p
        then 1 else 0 := by
  unfold movePart
  rw [toDict_eq_map toV ht, toDict_eq_map fromV hf, List.filterMap_map]
  have hfun : ((fun kv : Path × String =>
        if dlookup (toV.map fun r' => (r'.fileName, r'.hash)) kv.1 = none then
          some (⟨kv.1, "move"⟩ : ConvertEntry)
        else none)
      ∘ fun r : FileRecord => (r.fileName, r.hash))
      = fun r : FileRecord =>
        if dlookup (toV.map fun r' => (r'.fileName, r'.hash)) r.fileName
            = none then
          some (⟨r.fileName, "move"⟩ : ConvertEntry)
        else none := rfl
  rw [hfun, countP_filterMap_ite]
  have hcongr : ∀ r ∈ fromV,
      (decide (dlookup (toV.map fun r' => (r'.fileName, r'.hash))
            r.fileName = none)
        && decide ((⟨r.fileName, "move"⟩ : ConvertEntry).filename = p
            ∧ (⟨r.fileName, "move"⟩ : ConvertEntry).status = "move"))
      = (decide (r.fileName = p) &&
          decide (dlookup (toV.map fun r' => (r'.fileName, r'.hash))
            r.fileName = none)) := by
    intro r _
    by_cases hc : dlookup (toV.map fun r' => (r'.fileName, r'.hash))
        r.fileName = none
    · by_cases hp' : r.fileName = p
      · subst hp'
        simp [hc]
      · simp [hc, hp']
    · simp [hc]
  have hcongr2 : ∀ r ∈ fromV, ((decide (dlookup (toV.map
        fun r' => (r'.fileName, r'.hash)) r.fileName = none)
    && decide ((⟨r.fileName, "move"⟩ : ConvertEntry).filename = p
        ∧ (⟨r.fileName, "move"⟩ : ConvertEntry).status = "move")) = true
      ↔ (decide (r.fileName = p) &&
          decide (dlookup (toV.map fun r' => (r'.fileName, r'.hash))
            r.fileName = none)) = true) := by
    intro r hr
    rw [hcongr r hr]
  rw [List.countP_congr hcongr2, countP_key_and fromV p _ hf]
  refine if_congr ?_ rfl rfl
  constructor
  · rintro ⟨r, hr, hname, hc⟩
    have hc' : dlookup (toV.map fun r' => (r'.fileName, r'.hash)) r.fileName
        = none := of_decide_eq_true hc
    rw [hname] at hc'
    exact ⟨⟨r, hr, hname⟩, (dlookup_map_eq_none toV p).mp hc'⟩
  · rintro ⟨⟨r, hr, hname⟩, hall⟩
    refine ⟨r, hr, hname, decide_eq_true ?_⟩
    rw [hname]
    exact (dlookup_map_eq_none toV p).mpr hall

theorem mem_copyPart_status (toV fromV : List FileRecord) (e : ConvertEntry)
    (h : e ∈ copyPart toV fromV) : e.status = "copy" := by
  obtain ⟨kv, _, heq⟩ := List.mem_filterMap.mp h
  by_cases hc : dlookup (toDict fromV) kv.1 = none
      ∨ dlookup (toDict fromV) kv.1 ≠ some kv.2
  · rw [if_pos hc] at heq
    cases Option.some.inj heq
    rfl
  · rw [if_neg hc] at heq
    exact Option.noConfusion heq

theorem mem_movePart_status (toV fromV : List FileRecord) (e : ConvertEntry)
    (h : e ∈ movePart toV fromV) : e.status = "move" := by
  obtain ⟨kv, _, heq⟩ := List.mem_filterMap.mp h
  by_cases hc : dlookup (toDict toV) kv.1 = none
  · rw [if_pos hc] at heq
    cases Option.some.inj heq
    rfl
  · rw [if_neg hc] at heq
    exact Option.noConfusion heq

theorem copyPart_count_move (toV fromV : List FileRecord) (p : Path) :
    ((copyPart toV fromV).countP fun e =>
        decide (e.filename = p ∧ e.status = "move")) = 0 := by
  rw [List.countP_eq_zero]
  intro e he hpred
  have hs := mem_copyPart_status toV fromV e he
  have := (of_decide_eq_true hpred).2
  rw [hs] at this
  exact absurd this (by decide)

theorem movePart_count_copy (toV fromV : List FileRecord) (p : Path) :
    ((movePart toV fromV).countP fun e =>
        decide (e.filename = p ∧ e.status = "copy")) = 0 := by
  rw [List.countP_eq_zero]
  intro e he hpred
  have hs := mem_movePart_status toV fromV e he
  have := (of_decide_eq_true hpred).2
  rw [hs] at this
  exact absurd this (by decide)

/-- Claim C1: for a pair of snapshots with unique paths, the plan holds
exactly one `"copy"` entry for each path present in target and absent from
current or carrying a different digest there; exactly one `"move"` entry
for each path present in current but absent from target; and, per path, no
entries beyond those (so a path in both trees with equal digests
contributes nothing). -/
theorem claim_C1 (toV fromV : List FileRecord)
    (ht : (toV.map FileRecord.fileName).Nodup)
    (hf : (fromV.map FileRecord.fileName).Nodup) (p : Path) :
    ((compare_versions toV fromV).countP fun e =>
        decide (e.filename = p ∧ e.status = "copy"))
      = (if ∃ r ∈ toV, r.fileName = p
            ∧ ∀ r' ∈ fromV, r'.fileName = p → r'.hash ≠ r.hash
         then 1 else 0)
    ∧ ((compare_versions toV fromV).countP fun e =>
        decide (e.filename = p ∧ e.status = "move"))
      = (if (∃ r ∈ fromV, r.fileName = p) ∧ ∀ r ∈ toV, r.fileName ≠ p
         then 1 else 0)
    ∧ ((compare_versions toV fromV).countP fun e => decide (e.filename = p))
      = ((compare_versions toV fromV).countP fun e =>
          decide (e.filename = p ∧ e.status = "copy"))
        + ((compare_versions toV fromV).countP fun e =>
          decide (e.filename = p ∧ e.status = "move")) := by
  have h1 : ((compare_versions toV fromV).countP fun e =>
      decide (e.filename = p ∧ e.status = "copy"))
      = ((copyPart toV fromV).countP fun e =>
        decide (e.filename = p ∧ e.status = "copy")) := by
    rw [compare_versions_eq_parts, List.countP_append,
      movePart_count_copy toV fromV p]
    simp
  have h2 : ((compare_versions toV fromV).countP fun e =>
      decide (e.filename = p ∧ e.status = "move"))
      = ((movePart toV fromV).countP fun e =>
        decide (e.filename = p ∧ e.status = "move")) := by
    rw [compare_versions_eq_parts, List.countP_append,
      copyPart_count_move toV fromV p]
    simp
  refine ⟨?_, ?_, ?_⟩
  · rw [h1, copyPart_count toV fromV ht hf p]
  · rw [h2, movePart_count toV fromV ht hf p]
  · rw [h1, h2, compare_versions_eq_parts, List.countP_append]
    have hcopy : ((copyPart toV fromV).countP fun e =>
        decide (e.filename = p))
        = ((copyPart toV fromV).countP fun e =>
          decide (e.filename = p ∧ e.status = "copy")) := by
      apply List.countP_congr
      intro e he
      have hs := mem_copyPart_status toV fromV e he
      by_cases hp' : e.filename = p <;> simp [hp', hs]
    have hmove : ((movePart toV fromV).countP fun e =>
        decide (e.filename = p))
        = ((movePart toV fromV).countP fun e =>
          decide (e.filename = p ∧ e.status = "move")) := by
      apply List.countP_congr
      intro e he
      have hs := mem_movePart_status toV fromV e he
      by_cases hp' : e.filename = p <;> simp [hp', hs]
    rw [hcopy, hmove]

/-- Claim C1 witness: a concrete diff of the one-file snapshots `a@x`
against `b@y`, checked at path `a`. -/
theorem claim_C1_witness :
    (([⟨["a"], "x"⟩] : List FileRecord).map FileRecord.fileName).Nodup
    ∧ (([⟨["b"], "y"⟩] : List FileRecord).map FileRecord.fileName).Nodup
    ∧ (((compare_versions [⟨["a"], "x"⟩] [⟨["b"], "y"⟩]).countP fun e =>
          decide (e.filename = ["a"] ∧ e.status = "copy"))
        = (if ∃ r ∈ ([⟨["a"], "x"⟩] : List FileRecord), r.fileName = ["a"]
              ∧ ∀ r' ∈ ([⟨["b"], "y"⟩] : List FileRecord),
                  r'.fileName = ["a"] → r'.hash ≠ r.hash
           then 1 else 0)
      ∧ (((compare_versions [⟨["a"], "x"⟩] [⟨["b"], "y"⟩]).countP fun e =>
          decide (e.filename = ["a"] ∧ e.status = "move"))
        = (if (∃ r ∈ ([⟨["b"], "y"⟩] : List FileRecord), r.fileName = ["a"])
              ∧ ∀ r ∈ ([⟨["a"], "x"⟩] : List FileRecord), r.fileName ≠ ["a"]
           then 1 else 0))
      ∧ ((compare_versions [⟨["a"], "x"⟩] [⟨["b"], "y"⟩]).countP fun e =>
            decide (e.filename = ["a"]))
        = ((compare_versions [⟨["a"], "x"⟩] [⟨["b"], "y"⟩]).countP fun e =>
            decide (e.filename = ["a"] ∧ e.status = "copy"))
          + ((compare_versions [⟨["a"], "x"⟩] [⟨["b"], "y"⟩]).countP fun e =>
            decide (e.filename = ["a"] ∧ e.status = "move"))) :=
  ⟨by decide, by decide,
    claim_C1 [⟨["a"], "x"⟩] [⟨["b"], "y"⟩] (by decide) (by decide) ["a"]⟩

theorem foldl_scan_append (hashF : Bytes → String) (walk : List SFile) :
    ∀ acc, walk.foldl
        (fun file_data f =>
          if f.readable then file_data ++ [⟨f.relPath, hashF f.contents⟩]
          else file_data) acc
      = acc ++ (walk.filter fun f => f.readable).map
          fun f => (⟨f.relPath, hashF f.contents⟩ : FileRecord) := by
  induction walk with
  | nil => intro acc; simp
  | cons f rest ih =>
      intro acc
      by_cases h : f.readable = true <;>
        simp [List.foldl_cons, List.filter_cons, h, ih]

/-- The scanner's loop, as a filter of the walked files: exactly the
readable files are recorded, in walk order. -/
theorem scan_folder_eq (hashF : Bytes → String) (walk : List SFile) :
    scan_folder hashF walk
      = (walk.filter fun f => f.readable).map
          fun f => (⟨f.relPath, hashF f.contents⟩ : FileRecord) := by
  simpa [scan_folder] using foldl_scan_append hashF walk []

/-- Claim C8: scanning a walk that contains an unreadable file still
returns a snapshot holding a record for every readable file — the failing
file is skipped by the per-file `except: continue` and the scan of the
remainder goes on instead of aborting. -/
theorem claim_C8 (hashF : Bytes → String) (walk : List SFile) (bad : SFile)
    (hmem : bad ∈ walk) (hbad : bad.readable = false) :
    ∀ f ∈ walk, f.readable = true →
      (⟨f.relPath, hashF f.contents⟩ : FileRecord) ∈ scan_folder hashF walk := by
  intro f hf hr
  rw [scan_folder_eq]
  exact List.mem_map_of_mem _ (List.mem_filter.mpr ⟨hf, hr⟩)

/-- Claim C8 witness: a two-file walk whose second file is unreadable; the
readable file's record is in the scan result. -/
theorem claim_C8_witness :
    (⟨["b"], [2], false⟩ : SFile)
        ∈ ([⟨["a"], [1], true⟩, ⟨["b"], [2], false⟩] : List SFile)
    ∧ (⟨["b"], [2], false⟩ : SFile).readable = false
    ∧ (⟨["a"], "h"⟩ : FileRecord)
        ∈ scan_folder (fun _ => "h") [⟨["a"], [1], true⟩, ⟨["b"], [2], false⟩] :=
  ⟨by decide, by decide,
    claim_C8 (fun _ => "h") [⟨["a"], [1], true⟩, ⟨["b"], [2], false⟩]
      ⟨["b"], [2], false⟩ (by decide) (by decide)
      ⟨["a"], [1], true⟩ (by decide) (by decide)⟩

/-- Claim C5: every entry of the archive `create_zip` builds is named by a
`"copy"` entry of its plan — `"move"` entries and paths the plan does not
mark for copying are never written into the archive. -/
theorem claim_C5 (convert_data : List ConvertEntry) (to_folder : Path)
    (world : World) (e : ZipEntry)
    (he : e ∈ zipEntriesOf convert_data to_folder world) :
    ∃ item ∈ convert_data, item.status = "copy" ∧ item.filename = e.arcname := by
  obtain ⟨item, hitem, heq⟩ := List.mem_filterMap.mp he
  obtain ⟨hmem, hstat⟩ := List.mem_filter.mp hitem
  cases hw : world (to_folder ++ item.filename) with
  | none =>
      rw [hw] at heq
      exact Option.noConfusion heq
  | some b =>
      rw [hw] at heq
      simp only [Option.map_some'] at heq
      cases heq
      exact ⟨item, hmem, of_decide_eq_true hstat, rfl⟩

/-- Claim C5 witness: a one-entry plan packed from a world holding the file;
the produced entry is accounted for by the plan's copy entry. -/
theorem claim_C5_witness :
    (⟨["a"], [7]⟩ : ZipEntry) ∈ zipEntriesOf [⟨["a"], "copy"⟩] ["t"]
        (fun q => if q = ["t", "a"] then some [7] else none)
    ∧ ∃ item ∈ ([⟨["a"], "copy"⟩] : List ConvertEntry),
        item.status = "copy"
          ∧ item.filename = (⟨["a"], [7]⟩ : ZipEntry).arcname :=
  ⟨by decide,
   claim_C5 [⟨["a"], "copy"⟩] ["t"]
     (fun q => if q = ["t", "a"] then some [7] else none) ⟨["a"], [7]⟩
     (by decide)⟩

/-- Claim C10: `create_zip`'s only write is the single archive file at the
fixed path `version_update.zip` in the parent directory of the (nonempty,
normalized) target root — silently replacing whatever was there — and it
creates, modifies and deletes nothing strictly inside the target root. -/
theorem claim_C10 (convert_data : List ConvertEntry) (to_folder : Path)
    (world : World) (hne : to_folder ≠ []) :
    (∀ q, q ≠ zipPathOf to_folder →
        (create_zip convert_data to_folder world).2 q = world q)
    ∧ (∀ q, to_folder <+: q → q ≠ to_folder →
        (create_zip convert_data to_folder world).2 q = world q)
    ∧ ((convert_data.filter fun item => decide (item.status = "copy")) ≠ [] →
        (create_zip convert_data to_folder world).2 (zipPathOf to_folder)
          = some (encodeZip (zipEntriesOf convert_data to_folder world))) := by
  by_cases hz : (convert_data.filter fun item => decide (item.status = "copy"))
      = []
  · have hsnd : (create_zip convert_data to_folder world).2 = world := by
      simp only [create_zip]
      rw [if_pos hz]
    refine ⟨fun q _ => by rw [hsnd], fun q _ _ => by rw [hsnd],
      fun hcontra => absurd hz hcontra⟩
  · have hsnd : (create_zip convert_data to_folder world).2
        = fun q =>
          if q = zipPathOf to_folder then
            some (encodeZip (zipEntriesOf convert_data to_folder world))
          else world q := by
      simp only [create_zip]
      rw [if_neg hz]
    have hlen : (zipPathOf to_folder).length = to_folder.length := by
      have hpos : 0 < to_folder.length := List.length_pos.mpr hne
      simp only [zipPathOf, List.length_append, List.length_dropLast,
        List.length_cons, List.length_nil]
      omega
    refine ⟨?_, ?_, ?_⟩
    · intro q hq
      rw [hsnd]
      simp only [if_neg hq]
    · intro q hpre hqne
      have hq : q ≠ zipPathOf to_folder := by
        intro hEq
        subst hEq
        have hlen' : to_folder.length = (zipPathOf to_folder).length :=
          hlen.symm
        exact hqne (hpre.eq_of_length hlen').symm
      rw [hsnd]
      simp only [if_neg hq]
    · intro _
      rw [hsnd]
      simp

/-- Claim C10 witness: packing a one-copy plan from target root `r/app`;
an unrelated path and a path strictly inside the target root are untouched,
and the archive lands at `r/version_update.zip`. -/
theorem claim_C10_witness :
    (["r", "app"] : Path) ≠ []
    ∧ (create_zip [⟨["a"], "copy"⟩] ["r", "app"] (fun _ => none)).2 ["z"]
        = (fun _ => none : World) ["z"]
    ∧ (create_zip [⟨["a"], "copy"⟩] ["r", "app"] (fun _ => none)).2
          ["r", "app", "a"]
        = (fun _ => none : World) ["r", "app", "a"]
    ∧ (create_zip [⟨["a"], "copy"⟩] ["r", "app"] (fun _ => none)).2
          (zipPathOf ["r", "app"])
        = some (encodeZip (zipEntriesOf [⟨["a"], "copy"⟩] ["r", "app"]
            (fun _ => none))) :=
  ⟨by decide,
   (claim_C10 [⟨["a"], "copy"⟩] ["r", "app"] (fun _ => none) (by decide)).1
     ["z"] (by decide),
   (claim_C10 [⟨["a"], "copy"⟩] ["r", "app"] (fun _ => none) (by decide)).2.1
     ["r", "app", "a"] (by decide) (by decide),
   (claim_C10 [⟨["a"], "copy"⟩] ["r", "app"] (fun _ => none) (by decide)).2.2
     (by decide)⟩

theorem equalize_eq (convert_data : List ConvertEntry)
    (archive : List ZipEntry) (fs : FS) :
    equalize_versions convert_data archive fs
      = convert_data.foldl move_step
          (⟨(extractall fs archive).files,
            addDir (extractall fs archive).dirs
              ["ExtraFiles_VersionEqualizer"]⟩, []) :=
  rfl

theorem FS_ext (fs gs : FS) (hfiles : fs.files = gs.files)
    (hdirs : fs.dirs = gs.dirs) : fs = gs := by
  cases fs
  cases gs
  cases hfiles
  cases hdirs
  rfl

theorem extractall_files_eq (archive : List ZipEntry) (q : Path) :
    ∀ fs : FS, (∀ e ∈ archive, e.arcname ≠ q) →
      (extractall fs archive).files q = fs.files q := by
  induction archive with
  | nil => intro fs _; rfl
  | cons e t ih =>
      intro fs hq
      show (extractall (extract_one fs e) t).files q = fs.files q
      rw [ih (extract_one fs e)
        (fun x hx => hq x (List.mem_cons_of_mem e hx))]
      have he : ¬ q = e.arcname := fun h =>
        hq e (List.mem_cons_self e t) h.symm
      simp [extract_one, setFile, he]

theorem extractall_files_indep (archive : List ZipEntry) (q : Path) :
    ∀ fs gs : FS, (∃ e ∈ archive, e.arcname = q) →
      (extractall fs archive).files q = (extractall gs archive).files q := by
  induction archive with
  | nil =>
      intro fs gs h
      rcases h with ⟨e, he, _⟩
      exact absurd he (List.not_mem_nil e)
  | cons e t ih =>
      intro fs gs h
      show (extractall (extract_one fs e) t).files q
        = (extractall (extract_one gs e) t).files q
      by_cases ht : ∃ x ∈ t, x.arcname = q
      · exact ih (extract_one fs e) (extract_one gs e) ht
      · have hnt : ∀ x ∈ t, x.arcname ≠ q := by
          intro x hx hEq
          exact ht ⟨x, hx, hEq⟩
        have heq : e.arcname = q := by
          rcases h with ⟨x, hx, hxq⟩
          rcases List.mem_cons.mp hx with h1 | h1
          · cases h1; exact hxq
          · exact absurd hxq (hnt x h1)
        rw [extractall_files_eq t q (extract_one fs e) hnt,
          extractall_files_eq t q (extract_one gs e) hnt]
        simp [extract_one, setFile, heq]

theorem mem_addDir (ds : List Path) (d x : Path) (h : x ∈ ds) :
    x ∈ addDir ds d := by
  by_cases hd : d ∈ ds <;> simp [addDir, hd, h]

theorem mem_addDir_self (ds : List Path) (d : Path) : d ∈ addDir ds d := by
  by_cases hd : d ∈ ds <;> simp [addDir, hd]

theorem addDir_of_mem (ds : List Path) (d : Path) (h : d ∈ ds) :
    addDir ds d = ds := by
  simp [addDir, h]

theorem mem_addDirs (l : List Path) :
    ∀ ds x, x ∈ ds → x ∈ addDirs ds l := by
  induction l with
  | nil => intro ds x h; exact h
  | cons d t ih =>
      intro ds x h
      exact ih (addDir ds d) x (mem_addDir ds d x h)

theorem mem_addDirs_of_mem_arg (l : List Path) :
    ∀ ds x, x ∈ l → x ∈ addDirs ds l := by
  induction l with
  | nil => intro ds x h; exact absurd h (List.not_mem_nil x)
  | cons d t ih =>
      intro ds x h
      rcases List.mem_cons.mp h with h1 | h1
      · subst h1
        exact mem_addDirs t (addDir ds x) x (mem_addDir_self ds x)
      · exact ih (addDir ds d) x h1

theorem addDirs_of_subset (l : List Path) :
    ∀ ds, (∀ x ∈ l, x ∈ ds) → addDirs ds l = ds := by
  induction l with
  | nil => intro ds _; rfl
  | cons d t ih =>
      intro ds h
      show addDirs (addDir ds d) t = ds
      rw [addDir_of_mem ds d (h d (List.mem_cons_self d t))]
      exact ih ds (fun x hx => h x (List.mem_cons_of_mem d hx))

theorem extractall_dirs_mono (archive : List ZipEntry) :
    ∀ (fs : FS) (x : Path), x ∈ fs.dirs → x ∈ (extractall fs archive).dirs := by
  induction archive with
  | nil => intro fs x h; exact h
  | cons e t ih =>
      intro fs x h
      exact ih (extract_one fs e) x
        (mem_addDirs (parentDirs e.arcname) fs.dirs x h)

theorem extractall_dirs_contains (archive : List ZipEntry) :
    ∀ fs : FS, ∀ e ∈ archive, ∀ d ∈ parentDirs e.arcname,
      d ∈ (extractall fs archive).dirs := by
  induction archive with
  | nil =>
      intro fs e he
      exact absurd he (List.not_mem_nil e)
  | cons e' t ih =>
      intro fs e he d hd
      rcases List.mem_cons.mp he with h1 | h1
      · subst h1
        exact extractall_dirs_mono t (extract_one fs e) d
          (mem_addDirs_of_mem_arg (parentDirs e.arcname) fs.dirs d hd)
      · exact ih (extract_one fs e') e h1 d hd

theorem extractall_dirs_eq (archive : List ZipEntry) :
    ∀ fs : FS, (∀ e ∈ archive, ∀ d ∈ parentDirs e.arcname, d ∈ fs.dirs) →
      (extractall fs archive).dirs = fs.dirs := by
  induction archive with
  | nil => intro fs _; rfl
  | cons e t ih =>
      intro fs h
      have hdirs : (extract_one fs e).dirs = fs.dirs :=
        addDirs_of_subset (parentDirs e.arcname) fs.dirs
          (h e (List.mem_cons_self e t))
      show (extractall (extract_one fs e) t).dirs = fs.dirs
      rw [ih (extract_one fs e)
        (fun x hx d hd => hdirs ▸ h x (List.mem_cons_of_mem e hx) d hd)]
      exact hdirs

theorem moveFold_dirs_mono (L : List ConvertEntry) :
    ∀ (st : FS × List Path) (d : Path), d ∈ st.1.dirs →
      d ∈ (L.foldl move_step st).1.dirs := by
  induction L with
  | nil => intro st d h; exact h
  | cons f t ih =>
      intro st d h
      show d ∈ (t.foldl move_step (move_step st f)).1.dirs
      apply ih
      by_cases hs : f.status = "move"
      · cases hc : st.1.files f.filename with
        | none => simpa [move_step, hs, hc] using h
        | some c =>
            simp only [move_step, if_pos hs, hc]
            exact mem_addDirs _ _ d h
      · simpa [move_step, hs] using h

theorem moveFold_files_frame (L : List ConvertEntry) (q : Path) :
    ∀ st : FS × List Path,
      (∀ f ∈ L, f.status = "move" →
        q ≠ f.filename ∧ q ≠ "ExtraFiles_VersionEqualizer" :: f.filename) →
      (L.foldl move_step st).1.files q = st.1.files q := by
  induction L with
  | nil => intro st _; rfl
  | cons f t ih =>
      intro st h
      show (t.foldl move_step (move_step st f)).1.files q = st.1.files q
      rw [ih (move_step st f) (fun x hx => h x (List.mem_cons_of_mem f hx))]
      by_cases hs : f.status = "move"
      · obtain ⟨h1, h2⟩ := h f (List.mem_cons_self f t) hs
        cases hc : st.1.files f.filename with
        | none => simp [move_step, hs, hc]
        | some c => simp [move_step, hs, hc, setFile, removeFile, h1, h2]
      · simp [move_step, hs]

theorem moveFold_files_none (L : List ConvertEntry) (q : Path)
    (hq : q.head? ≠ some "ExtraFiles_VersionEqualizer") :
    ∀ st : FS × List Path, st.1.files q = none →
      (L.foldl move_step st).1.files q = none := by
  induction L with
  | nil => intro st h; exact h
  | cons f t ih =>
      intro st h
      show (t.foldl move_step (move_step st f)).1.files q = none
      apply ih
      by_cases hs : f.status = "move"
      · cases hc : st.1.files f.filename with
        | none => simpa [move_step, hs, hc] using h
        | some c =>
            have hne : q ≠ "ExtraFiles_VersionEqualizer" :: f.filename := by
              intro hEq
              apply hq
              rw [hEq]
              rfl
            by_cases hfq : q = f.filename
            · simp [move_step, hs, hc, setFile, removeFile, hne, hfq]
            · simp [move_step, hs, hc, setFile, removeFile, hne, hfq, h]
      · simpa [move_step, hs] using h

theorem moveFold_clears (L : List ConvertEntry) (p : Path) :
    ∀ st : FS × List Path,
      (∀ f ∈ L, f.status = "move" →
        f.filename.head? ≠ some "ExtraFiles_VersionEqualizer") →
      (∃ f ∈ L, f.filename = p ∧ f.status = "move") →
      (L.foldl move_step st).1.files p = none := by
  induction L with
  | nil =>
      intro st _ hex
      rcases hex with ⟨f, hf, _⟩
      exact absurd hf (List.not_mem_nil f)
  | cons f t ih =>
      intro st hL hex
      have hLt : ∀ x ∈ t, x.status = "move" →
          x.filename.head? ≠ some "ExtraFiles_VersionEqualizer" :=
        fun x hx => hL x (List.mem_cons_of_mem f hx)
      show (t.foldl move_step (move_step st f)).1.files p = none
      by_cases hf : f.filename = p ∧ f.status = "move"
      · have hphead : p.head? ≠ some "ExtraFiles_VersionEqualizer" :=
          hf.1 ▸ hL f (List.mem_cons_self f t) hf.2
        apply moveFold_files_none t p hphead
        have hne : p ≠ "ExtraFiles_VersionEqualizer" :: f.filename := by
          intro hEq
          apply hphead
          rw [hEq]
          rfl
        cases hc : st.1.files f.filename with
        | none =>
            simp only [move_step, if_pos hf.2, hc]
            rw [← hf.1]
            exact hc
        | some c =>
            simp [move_step, hf.2, hc, setFile, removeFile, hne, hf.1.symm]
      · have hex' : ∃ x ∈ t, x.filename = p ∧ x.status = "move" := by
          rcases hex with ⟨x, hx, hxp⟩
          rcases List.mem_cons.mp hx with h1 | h1
          · exact absurd (h1 ▸ hxp) hf
          · exact ⟨x, h1, hxp⟩
        exact ih (move_step st f) hLt hex'

theorem moveFold_noop (L : List ConvertEntry) :
    ∀ st : FS × List Path,
      (∀ f ∈ L, f.status = "move" → st.1.files f.filename = none) →
      L.foldl move_step st = st := by
  induction L with
  | nil => intro st _; rfl
  | cons f t ih =>
      intro st h
      have hstep : move_step st f = st := by
        by_cases hs : f.status = "move"
        · have hc := h f (List.mem_cons_self f t) hs
          simp [move_step, hs, hc]
        · simp [move_step, hs]
      show t.foldl move_step (move_step st f) = st
      rw [hstep]
      exact ih st (fun x hx => h x (List.mem_cons_of_mem f hx))

theorem moveFold_quarantine (L : List ConvertEntry) (p : Path) (c : Bytes)
    (hp : p.head? ≠ some "ExtraFiles_VersionEqualizer") :
    ∀ st : FS × List Path,
      (∀ f ∈ L, f.status = "move" →
        f.filename.head? ≠ some "ExtraFiles_VersionEqualizer") →
      ((st.1.files p = some c ∧ ∃ f ∈ L, f.filename = p ∧ f.status = "move")
        ∨ (st.1.files ("ExtraFiles_VersionEqualizer" :: p) = some c
            ∧ st.1.files p = none)) →
      (L.foldl move_step st).1.files ("ExtraFiles_VersionEqualizer" :: p)
        = some c := by
  induction L with
  | nil =>
      intro st _ hOr
      rcases hOr with ⟨_, f, hf, _⟩ | ⟨hq1, _⟩
      · exact absurd hf (List.not_mem_nil f)
      · exact hq1
  | cons f t ih =>
      intro st hL hOr
      have hLt : ∀ x ∈ t, x.status = "move" →
          x.filename.head? ≠ some "ExtraFiles_VersionEqualizer" :=
        fun x hx => hL x (List.mem_cons_of_mem f hx)
      show (t.foldl move_step (move_step st f)).1.files _ = some c
      rcases hOr with ⟨hpc, hex⟩ | ⟨hq1, hq2⟩
      · by_cases hfp : f.filename = p ∧ f.status = "move"
        · apply ih (move_step st f) hLt
          right
          have hsrc : st.1.files f.filename = some c := by
            rw [hfp.1]
            exact hpc
          have hne : p ≠ "ExtraFiles_VersionEqualizer" :: f.filename := by
            intro hEq
            apply hp
            rw [hEq]
            rfl
          have hnep : ¬ p = "ExtraFiles_VersionEqualizer" :: p := by
            intro hEq
            apply hp
            rw [hEq]
            rfl
          constructor
          · simp [move_step, hfp.2, hsrc, hpc, setFile, removeFile, hfp.1]
          · simp [move_step, hfp.2, hsrc, hpc, setFile, removeFile, hfp.1,
              hnep]
        · have hex' : ∃ x ∈ t, x.filename = p ∧ x.status = "move" := by
            rcases hex with ⟨x, hx, hxp⟩
            rcases List.mem_cons.mp hx with h1 | h1
            · exact absurd (h1 ▸ hxp) hfp
            · exact ⟨x, h1, hxp⟩
          apply ih (move_step st f) hLt
          left
          refine ⟨?_, hex'⟩
          by_cases hs : f.status = "move"
          · cases hc' : st.1.files f.filename with
            | none => simpa [move_step, hs, hc'] using hpc
            | some b =>
                have hnfp : ¬ p = f.filename := by
                  intro hEq
                  exact hfp ⟨hEq.symm, hs⟩
                have hne2 : p ≠ "ExtraFiles_VersionEqualizer" :: f.filename := by
                  intro hEq
                  apply hp
                  rw [hEq]
                  rfl
                simp [move_step, hs, hc', setFile, removeFile, hne2, hnfp, hpc]
          · simpa [move_step, hs] using hpc
      · apply ih (move_step st f) hLt
        right
        by_cases hs : f.status = "move"
        · cases hc' : st.1.files f.filename with
          | none =>
              constructor <;> simp [move_step, hs, hc', hq1, hq2]
          | some b =>
              have hffn : ¬ f.filename = p := by
                intro hEq
                rw [hEq, hq2] at hc'
                exact Option.noConfusion hc'
              have hpf : ¬ p = f.filename := fun hEq => hffn hEq.symm
              have hEFne : ¬ ("ExtraFiles_VersionEqualizer" :: p)
                  = ("ExtraFiles_VersionEqualizer" :: f.filename) := by
                intro hEq
                injection hEq with hh ht'
                exact hpf ht'
              have h3 : ¬ ("ExtraFiles_VersionEqualizer" :: p) = f.filename := by
                intro hEq
                apply hL f (List.mem_cons_self f t) hs
                rw [← hEq]
                rfl
              have h4 : ¬ p = ("ExtraFiles_VersionEqualizer" :: f.filename) := by
                intro hEq
                apply hp
                rw [hEq]
                rfl
              constructor
              · simp [move_step, hs, hc', setFile, removeFile, hEFne, h3, hq1]
              · simp [move_step, hs, hc', setFile, removeFile, h4, hpf, hq2]
        · constructor <;> simp [move_step, hs, hq1, hq2]

theorem moveFold_filter (L : List ConvertEntry) :
    ∀ st : FS × List Path,
      (L.filter fun f => decide (f.status = "move")).foldl move_step st
        = L.foldl move_step st := by
  induction L with
  | nil => intro st; rfl
  | cons f t ih =>
      intro st
      by_cases hs : f.status = "move"
      · simp [List.filter_cons, hs, List.foldl_cons, ih]
      · have hstep : move_step st f = st := by simp [move_step, hs]
        simp [List.filter_cons, hs, List.foldl_cons, ih, hstep]

/-- Claim C2 counterexample: a plan whose REMOVE set contains a path that
already lies under the quarantine root. The current tree holds `p` with
bytes `[1]` and `ExtraFiles_VersionEqualizer/p` with bytes `[2]`, and the
plan (in current-snapshot walk order) removes both. The loop first renames
`p` onto `ExtraFiles_VersionEqualizer/p` — silently destroying the bytes
`[2]` — and then renames that file once more to
`ExtraFiles_VersionEqualizer/ExtraFiles_VersionEqualizer/p`. Afterwards the
quarantine location `ExtraFiles_VersionEqualizer/p`, where the claim
promises both originals byte-for-byte, holds nothing at all, and bytes
`[2]` are nowhere in the tree: a REMOVE-d file was permanently lost. -/
theorem claim_C2_cex :
    ((⟨fun q => if q = ["p"] then some [1]
        else if q = ["ExtraFiles_VersionEqualizer", "p"] then some [2]
        else none, []⟩ : FS).files ["p"] = some [1])
    ∧ ((⟨fun q => if q = ["p"] then some [1]
        else if q = ["ExtraFiles_VersionEqualizer", "p"] then some [2]
        else none, []⟩ : FS).files ["ExtraFiles_VersionEqualizer", "p"]
      = some [2])
    ∧ (equalize_versions
        [⟨["p"], "move"⟩, ⟨["ExtraFiles_VersionEqualizer", "p"], "move"⟩] []
        ⟨fun q => if q = ["p"] then some [1]
          else if q = ["ExtraFiles_VersionEqualizer", "p"] then some [2]
          else none, []⟩).1.files ["ExtraFiles_VersionEqualizer", "p"] = none
    ∧ (equalize_versions
        [⟨["p"], "move"⟩, ⟨["ExtraFiles_VersionEqualizer", "p"], "move"⟩] []
        ⟨fun q => if q = ["p"] then some [1]
          else if q = ["ExtraFiles_VersionEqualizer", "p"] then some [2]
          else none, []⟩).1.files
        ["ExtraFiles_VersionEqualizer", "ExtraFiles_VersionEqualizer", "p"]
      = some [1] :=
  ⟨by decide, by decide, by decide, by decide⟩

/-- Claim C2 as amended: provided the archive writes no REMOVE-d path (the
documented archive invariant: archive paths are ADD_OR_UPDATE paths, which
share no path with REMOVE entries) and no REMOVE path already lies under
the quarantine root `ExtraFiles_VersionEqualizer/`, every file that existed
in the current tree at a path the plan marks `"move"` is found
byte-for-byte unchanged under the quarantine root at its original relative
path after `equalize_versions`, and the original location is empty — a
rename, not a copy or delete. -/
theorem claim_C2 (plan : List ConvertEntry) (archive : List ZipEntry)
    (fs : FS)
    (H1 : ∀ e ∈ archive, ∀ f ∈ plan, f.status = "move" →
      e.arcname ≠ f.filename)
    (H2 : ∀ f ∈ plan, f.status = "move" →
      f.filename.head? ≠ some "ExtraFiles_VersionEqualizer")
    (p : Path) (c : Bytes)
    (hp : ∃ f ∈ plan, f.filename = p ∧ f.status = "move")
    (hc : fs.files p = some c) :
    (equalize_versions plan archive fs).1.files
        ("ExtraFiles_VersionEqualizer" :: p) = some c
    ∧ (equalize_versions plan archive fs).1.files p = none := by
  obtain ⟨f0, hf0, hf0p, hf0s⟩ := hp
  have hphead : p.head? ≠ some "ExtraFiles_VersionEqualizer" :=
    hf0p ▸ H2 f0 hf0 hf0s
  have hnotarc : ∀ e ∈ archive, e.arcname ≠ p := by
    intro e he hEq
    exact H1 e he f0 hf0 hf0s (hEq.trans hf0p.symm)
  have hext : (extractall fs archive).files p = some c :=
    (extractall_files_eq archive p fs hnotarc).trans hc
  rw [equalize_eq]
  constructor
  · apply moveFold_quarantine plan p c hphead _ H2
    left
    exact ⟨hext, ⟨f0, hf0, hf0p, hf0s⟩⟩
  · exact moveFold_clears plan p _ H2 ⟨f0, hf0, hf0p, hf0s⟩

/-- Claim C2 witness: a one-entry move plan, empty archive, and a tree
holding the file; it ends up under quarantine with its bytes. -/
theorem claim_C2_witness :
    (∀ e ∈ ([] : List ZipEntry),
      ∀ f ∈ ([⟨["p"], "move"⟩] : List ConvertEntry),
        f.status = "move" → e.arcname ≠ f.filename)
    ∧ (∀ f ∈ ([⟨["p"], "move"⟩] : List ConvertEntry), f.status = "move" →
        f.filename.head? ≠ some "ExtraFiles_VersionEqualizer")
    ∧ (∃ f ∈ ([⟨["p"], "move"⟩] : List ConvertEntry),
        f.filename = ["p"] ∧ f.status = "move")
    ∧ ((⟨fun q => if q = ["p"] then some [1] else none, []⟩ : FS).files ["p"]
        = some [1])
    ∧ ((equalize_versions [⟨["p"], "move"⟩] []
          ⟨fun q => if q = ["p"] then some [1] else none, []⟩).1.files
          ("ExtraFiles_VersionEqualizer" :: ["p"]) = some [1]
      ∧ (equalize_versions [⟨["p"], "move"⟩] []
          ⟨fun q => if q = ["p"] then some [1] else none, []⟩).1.files ["p"]
        = none) :=
  ⟨by decide, by decide, by decide, by decide,
    claim_C2 [⟨["p"], "move"⟩] []
      ⟨fun q => if q = ["p"] then some [1] else none, []⟩
      (by decide) (by decide) ["p"] [1] (by decide) (by decide)⟩

/-- Claim C3 counterexample: re-running `equalize_versions` is not a no-op
when a REMOVE path lies under the quarantine root. Plan (in this order):
remove `ExtraFiles_VersionEqualizer/x`, remove `x`; tree holds only `x`
with bytes `[1]`. The first run skips the missing quarantine path and
moves `x` to `ExtraFiles_VersionEqualizer/x`; the second run now finds
`ExtraFiles_VersionEqualizer/x` and moves it again, to
`ExtraFiles_VersionEqualizer/ExtraFiles_VersionEqualizer/x` — the tree
state after two runs differs from the state after one. -/
theorem claim_C3_cex :
    ((equalize_versions
        [⟨["ExtraFiles_VersionEqualizer", "x"], "move"⟩, ⟨["x"], "move"⟩] []
        ⟨fun q => if q = ["x"] then some [1] else none, []⟩).1.files
        ["ExtraFiles_VersionEqualizer", "x"] = some [1])
    ∧ ((equalize_versions
        [⟨["ExtraFiles_VersionEqualizer", "x"], "move"⟩, ⟨["x"], "move"⟩] []
        (equalize_versions
          [⟨["ExtraFiles_VersionEqualizer", "x"], "move"⟩, ⟨["x"], "move"⟩] []
          ⟨fun q => if q = ["x"] then some [1] else none, []⟩).1).1.files
        ["ExtraFiles_VersionEqualizer", "x"] = none) :=
  ⟨by decide, by decide⟩

/-- Claim C3 as amended: provided the archive writes no REMOVE-d path, no
REMOVE path lies under the quarantine root, and the archive holds no entry
at the quarantine destination of a REMOVE path, running
`equalize_versions` a second time with the same plan and archive on the
already-equalized tree leaves the tree state exactly as after the first
run (the re-extraction rewrites identical bytes, the quarantine directory
already exists, and every move source is already gone). -/
theorem claim_C3 (plan : List ConvertEntry) (archive : List ZipEntry)
    (fs : FS)
    (H1 : ∀ e ∈ archive, ∀ f ∈ plan, f.status = "move" →
      e.arcname ≠ f.filename)
    (H2 : ∀ f ∈ plan, f.status = "move" →
      f.filename.head? ≠ some "ExtraFiles_VersionEqualizer")
    (H3 : ∀ e ∈ archive, ∀ f ∈ plan, f.status = "move" →
      e.arcname ≠ "ExtraFiles_VersionEqualizer" :: f.filename) :
    (equalize_versions plan archive (equalize_versions plan archive fs).1).1
      = (equalize_versions plan archive fs).1 := by
  simp only [equalize_eq]
  set F1 : FS := extractall fs archive with hF1
  set X1 : FS := ⟨F1.files, addDir F1.dirs ["ExtraFiles_VersionEqualizer"]⟩
    with hX1
  set S1 : FS := (plan.foldl move_step (X1, [])).1 with hS1
  have hclear : ∀ f ∈ plan, f.status = "move" → S1.files f.filename = none := by
    intro f hf hs
    rw [hS1]
    exact moveFold_clears plan f.filename (X1, []) H2 ⟨f, hf, rfl, hs⟩
  have hfilesq : ∀ q, (extractall S1 archive).files q = S1.files q := by
    intro q
    by_cases hq : ∃ e ∈ archive, e.arcname = q
    · have hframe : S1.files q = F1.files q := by
        rw [hS1]
        apply moveFold_files_frame plan q (X1, [])
        intro f hf hs
        rcases hq with ⟨e, he, hEq⟩
        constructor
        · rw [← hEq]
          exact H1 e he f hf hs
        · rw [← hEq]
          exact H3 e he f hf hs
      calc (extractall S1 archive).files q
          = (extractall fs archive).files q :=
            extractall_files_indep archive q S1 fs hq
        _ = S1.files q := hframe.symm
    · push_neg at hq
      exact extractall_files_eq archive q S1 hq
  have hdirs_sub : ∀ e ∈ archive, ∀ d ∈ parentDirs e.arcname,
      d ∈ S1.dirs := by
    intro e he d hd
    have h1 : d ∈ F1.dirs := extractall_dirs_contains archive fs e he d hd
    have h2 : d ∈ X1.dirs := mem_addDir F1.dirs _ d h1
    rw [hS1]
    exact moveFold_dirs_mono plan (X1, []) d h2
  have hdirs1 : (extractall S1 archive).dirs = S1.dirs :=
    extractall_dirs_eq archive S1 hdirs_sub
  have hEF : ["ExtraFiles_VersionEqualizer"] ∈ S1.dirs := by
    rw [hS1]
    exact moveFold_dirs_mono plan (X1, []) _ (mem_addDir_self F1.dirs _)
  have hX2 : (⟨(extractall S1 archive).files,
      addDir (extractall S1 archive).dirs
        ["ExtraFiles_VersionEqualizer"]⟩ : FS) = S1 := by
    apply FS_ext
    · funext q
      exact hfilesq q
    · rw [hdirs1]
      exact addDir_of_mem S1.dirs _ hEF
  rw [hX2, moveFold_noop plan (S1, []) hclear]

/-- Claim C3 witness: a one-entry move plan with an empty archive —
equalizing twice equals equalizing once. -/
theorem claim_C3_witness :
    (∀ e ∈ ([] : List ZipEntry),
      ∀ f ∈ ([⟨["p"], "move"⟩] : List ConvertEntry),
        f.status = "move" → e.arcname ≠ f.filename)
    ∧ (∀ f ∈ ([⟨["p"], "move"⟩] : List ConvertEntry), f.status = "move" →
        f.filename.head? ≠ some "ExtraFiles_VersionEqualizer")
    ∧ (∀ e ∈ ([] : List ZipEntry),
      ∀ f ∈ ([⟨["p"], "move"⟩] : List ConvertEntry), f.status = "move" →
        e.arcname ≠ "ExtraFiles_VersionEqualizer" :: f.filename)
    ∧ (equalize_versions [⟨["p"], "move"⟩] []
        (equalize_versions [⟨["p"], "move"⟩] []
          ⟨fun q => if q = ["p"] then some [1] else none, []⟩).1).1
      = (equalize_versions [⟨["p"], "move"⟩] []
          ⟨fun q => if q = ["p"] then some [1] else none, []⟩).1 :=
  ⟨by decide, by decide, by decide,
    claim_C3 [⟨["p"], "move"⟩] []
      ⟨fun q => if q = ["p"] then some [1] else none, []⟩
      (by decide) (by decide) (by decide)⟩

/-- Claim C6 counterexample: the plan lists `a` as an ADD_OR_UPDATE
(`"copy"`) entry but the archive is empty — a structural inconsistency.
`equalize_versions` returns exactly the same result (same final tree, same
`moved_files` list) as it does for the plan without that entry: nothing in
its result surfaces the inconsistency, and the run completes as if the
path were synchronized. -/
theorem claim_C6_cex :
    equalize_versions [⟨["a"], "copy"⟩] [] ⟨fun _ => none, []⟩
      = equalize_versions [] [] ⟨fun _ => none, []⟩ :=
  rfl

/-- Claim C6 as amended: `equalize_versions` never compares the plan's
ADD_OR_UPDATE entries with the archive — its behaviour and its whole
result (`moved_files` only) are unchanged if every non-`"move"` entry is
deleted from the plan, so an ADD_OR_UPDATE path absent from the archive is
not surfaced to the caller in any form. -/
theorem claim_C6 (plan : List ConvertEntry) (archive : List ZipEntry)
    (fs : FS) :
    equalize_versions plan archive fs
      = equalize_versions (plan.filter fun f => decide (f.status = "move"))
          archive fs := by
  simp only [equalize_eq]
  exact (moveFold_filter plan _).symm

/-- Claim C9 counterexample: even with an empty plan and an empty archive
(the identical-trees scenario), `equalize_versions` runs
`os.makedirs(..., exist_ok=True)` unconditionally and creates the
quarantine directory `ExtraFiles_VersionEqualizer` in a current tree that
had none. -/
theorem claim_C9_cex :
    ((⟨fun _ => none, []⟩ : FS).dirs = [])
    ∧ (equalize_versions [] [] ⟨fun _ => none, []⟩).1.dirs
        = [["ExtraFiles_VersionEqualizer"]] :=
  ⟨rfl, rfl⟩

/-- Claim C9 as amended: for identical trees (equal snapshots) the diff is
the empty plan and `create_zip` reports the explicit `"No files to zip"`
outcome, writing nothing; `equalize_versions` on that empty plan with an
empty archive moves no file and changes no file contents — but it does
create the quarantine directory `ExtraFiles_VersionEqualizer` (the
`os.makedirs` call is unconditional), so the tree is not entirely
untouched. -/
theorem claim_C9 (s : List FileRecord) (to_folder : Path) (world : World)
    (fs : FS) :
    compare_versions s s = []
    ∧ create_zip (compare_versions s s) to_folder world
        = (⟨none, some "No files to zip"⟩, world)
    ∧ (equalize_versions (compare_versions s s) [] fs).1.files = fs.files
    ∧ (equalize_versions (compare_versions s s) [] fs).2 = []
    ∧ (equalize_versions (compare_versions s s) [] fs).1.dirs
        = addDir fs.dirs ["ExtraFiles_VersionEqualizer"] := by
  have h0 := compare_versions_self s
  refine ⟨h0, ?_, ?_, ?_, ?_⟩
  · rw [h0]
    rfl
  · rw [h0]
    rfl
  · rw [h0]
    rfl
  · rw [h0]
    rfl

end VersionEqualizer
